import Mathlib

/-!
Verification of the V1 GLIF training core: loss regularizers
(`v1_model_utils/loss_functions.py`) and the adaptive truncated-BPTT
training loop (`multi_training.py`).

Tensors are embedded as nested lists of rationals, indexed
`[batch][time][neuron]`.  Floating-point NaN (as produced by
`tf.reduce_mean` of an empty tensor) is modelled by `Option`: `none`
stands for NaN and propagates through sums.
-/

/-- Sum of a list of rationals, `tf.reduce_sum` over one axis. -/
def listSum (l : List ℚ) : ℚ := l.foldr (· + ·) 0

/-- Mean of a list of rationals; on the empty list rational division by
zero yields `0` (callers that must be NaN-faithful use `meanOpt`). -/
def meanQ (l : List ℚ) : ℚ := listSum l / l.length

/-- Mean of a list, `tf.reduce_mean`: NaN (`none`) on the empty tensor. -/
def meanOpt (l : List ℚ) : Option ℚ :=
  if l.isEmpty then none else some (listSum l / l.length)

/-- Addition of scalars each of which may be NaN (`none`); NaN
propagates. -/
def addOpt : Option ℚ → Option ℚ → Option ℚ
  | some x, some y => some (x + y)
  | _, _ => none

/-- Sum of a list of possibly-NaN scalars, `tf.reduce_sum`. -/
def sumOpt (l : List (Option ℚ)) : Option ℚ :=
  l.foldr addOpt (some 0)

/-- Boolean masking along an axis, `tf.boolean_mask`. -/
def boolMask (mask : List Bool) (l : List ℚ) : List ℚ :=
  ((l.zip mask).filter (fun p => p.2)).map (fun p => p.1)

/-- Rectified linear unit, `tf.nn.relu`. -/
def relu (x : ℚ) : ℚ := max x 0

namespace VG

/-- Embeds `VoltageRegularization.__call__` (loss_functions.py lines
117-126): optionally mask neurons, normalize by the cell offset and
scale, square the relu of `v - 1` and of `-v + 1`, sum over neurons,
mean over batch and time, scale by `voltage_cost`. -/
def voltage_regularization (voltage_cost voltage_offset voltage_scale : ℚ)
    (core_mask : Option (List Bool)) (voltages : List (List (List ℚ))) : ℚ :=
  let vs : List (List (List ℚ)) := match core_mask with
    | none => voltages
    | some m => voltages.map (fun bt => bt.map (boolMask m))
  let perStep := vs.map (fun bt => bt.map (fun tn =>
    listSum (tn.map (fun v =>
      let voltage32 := (v - voltage_offset) / voltage_scale
      relu (voltage32 - 1) ^ 2 + relu (-voltage32 + 1) ^ 2))))
  meanQ perStep.flatten * voltage_cost

end VG

namespace OSI

/-- One `tf.where(delta > 90, delta - 180, delta)` pass
(loss_functions.py lines 151 and 154). -/
def wrapHigh (d : ℚ) : ℚ := if d > 90 then d - 180 else d

/-- One `tf.where(delta < -90, delta + 180, delta)` pass
(loss_functions.py lines 152 and 155). -/
def wrapLow (d : ℚ) : ℚ := if d < -90 then d + 180 else d

/-- Embeds `OrientationSelectivityLoss.calculate_delta_angle`
(loss_functions.py lines 140-157): raw difference, then the two wrap
passes applied twice, in source order. -/
def calculate_delta_angle (stim_angle tuning_angle : ℚ) : ℚ :=
  wrapLow (wrapHigh (wrapLow (wrapHigh (stim_angle - tuning_angle))))

end OSI

namespace HQ

/-- The indicator `tf.cast(u <= 0, dtype)` from loss_functions.py
line 27. -/
noncomputable def indLe (u : ℝ) : ℝ := if u ≤ 0 then 1 else 0

/-- Embeds `huber_quantile_loss` (loss_functions.py lines 25-31) over
the reals: `num = |tau - 1[u ≤ 0]|`, quadratic branch `num/(2κ)·u²`
when `|u| ≤ κ`, linear branch `num·(|u| - κ/2)` otherwise. -/
noncomputable def huber_quantile_loss (u tau kappa : ℝ) : ℝ :=
  let num := |tau - indLe u|
  if |u| ≤ kappa then num / (2 * kappa) * u ^ 2
  else num * (|u| - kappa / 2)

/-- Closed form of the symmetric Huber kernel
(`u²/(2κ)` for `|u| ≤ κ`, `|u| - κ/2` beyond), written without branches
so that its continuity is immediate. -/
noncomputable def huberKernel (kappa u : ℝ) : ℝ :=
  min |u| kappa * |u| / kappa - (min |u| kappa) ^ 2 / (2 * kappa)

end HQ

namespace Sched

/-- Loop body of `get_next_chunknum` for direction `up`
(multi_training.py lines 445-452): increment until a divisor of
`seq_len` is hit; once the counter passes `seq_len`, return `seq_len`. -/
def upLoop (seqLen c : ℕ) : ℕ :=
  if seqLen % c = 0 then c
  else if _h : seqLen ≤ c + 1 then seqLen
  else upLoop seqLen (c + 1)
termination_by seqLen - c
decreasing_by omega

/-- Loop body of `get_next_chunknum` for direction `down`
(multi_training.py lines 453-459): decrement until a divisor of
`seq_len` is hit; once the counter falls to `1`, return `1`. -/
def downLoop (seqLen c : ℕ) : ℕ :=
  if seqLen % c = 0 then c
  else if _h : c - 1 ≤ 1 then 1
  else downLoop seqLen (c - 1)
termination_by c
decreasing_by omega

/-- Direction argument of `get_next_chunknum`. -/
inductive Direction where
  | up
  | down

/-- Embeds `get_next_chunknum` (multi_training.py lines 443-462): the
entry increments (resp. decrements) once and then runs the search
loop. -/
def get_next_chunknum (chunknum seqLen : ℕ) : Direction → ℕ
  | .up => upLoop seqLen (chunknum + 1)
  | .down => downLoop seqLen (chunknum - 1)

/-- One scheduler-relevant event of the training loop: an out-of-memory
failure (multi_training.py lines 507-512, grow), or a completed step
with the firing-rate based shrink decision abstracted as a boolean
(lines 526-537). -/
inductive SchedEvent where
  | oom
  | stepDone (dec : Bool)

/-- The chunknum transition of the main loop: OOM grows; a completed
step shrinks to the next smaller divisor only when `chunknum > 1` and
the firing-rate comparison says so. -/
def schedStep (seqLen c : ℕ) : SchedEvent → ℕ
  | .oom => get_next_chunknum c seqLen .up
  | .stepDone dec =>
      if 1 < c then (if dec then get_next_chunknum c seqLen .down else c)
      else c

/-- The chunknum trajectory of a run: start at `1`
(multi_training.py line 476) and apply the per-event transition. -/
def schedRun (seqLen : ℕ) (events : List SchedEvent) : ℕ :=
  events.foldl (fun c e => schedStep seqLen c e) 1

end Sched

/-- First element is a lower bound style minimum: `np.min` analogue used
only to state range claims; `0` on the empty list. -/
def listMinD : List ℚ → ℚ
  | [] => 0
  | x :: xs => xs.foldl min x

/-- Maximum analogue of `listMinD`. -/
def listMaxD : List ℚ → ℚ
  | [] => 0
  | x :: xs => xs.foldl max x

namespace SFR

/-- Modelled from the spec: the sampler draws `n_neurons` uniform
numbers from `np.random.RandomState(seed)` — an external library PRNG,
not code of this repository.  It is modelled as a concrete pure
function of `(seed, n)` returning `n` values in `[0, 1)`, which is all
the claims rely on: the draws are a deterministic function of the seed
and the requested count. -/
def uniformSamples (seed n : ℕ) : List ℚ :=
  (List.range n).map (fun i : ℕ =>
    (((seed * 1103515245 + i * 12345 + 12345) % 1000000 : ℕ) : ℚ) / 1000000)

/-- Embeds the percentile ranks `(np.arange(len) + 1) / len`
(loss_functions.py line 17). -/
def percentiles (len : ℕ) : List ℚ :=
  (List.range len).map (fun i : ℕ => ((i : ℚ) + 1) / (len : ℚ))

/-- Embeds `np.sort` (ascending, stable). -/
def npSort (l : List ℚ) : List ℚ :=
  l.mergeSort (fun a b => decide (a ≤ b))

/-- Embeds `np.interp(x, xp, fp)` for ascending `xp`: clamp to `fp[0]`
below the first knot and to the last `fp` value above the last knot,
linear interpolation on the containing segment in between. -/
def np_interp (x : ℚ) : List ℚ → List ℚ → ℚ
  | x1 :: x2 :: xs, y1 :: y2 :: ys =>
      if x ≤ x1 then y1
      else if x ≤ x2 then y1 + (y2 - y1) * (x - x1) / (x2 - x1)
      else np_interp x (x2 :: xs) (y2 :: ys)
  | [_], [y1] => y1
  | _, _ => 0

/-- Embeds `sample_firing_rates` (loss_functions.py lines 15-22): sort
the empirical rates, build percentile ranks, draw seeded uniforms,
inverse-CDF interpolate, and sort the result ascending. -/
def sample_firing_rates (firing_rates : List ℚ) (n_neurons seed : ℕ) :
    List ℚ :=
  let sorted_firing_rates := npSort firing_rates
  let percs := percentiles firing_rates.length
  let x_rand := uniformSamples seed n_neurons
  npSort (x_rand.map (fun x => np_interp x percs sorted_firing_rates))

end SFR

namespace RL

/-- One entry of the target firing-rate table built in
multi_training.py lines 194-205: the global neuron indices of the cell
type and its ascending target rates. -/
structure TargetEntry where
  neuron_ids : List ℕ
  sorted_target_rates : List ℚ

/-- Embeds `tf.gather(rates, ids)` along the neuron axis. -/
def gather (rates : List ℚ) (ids : List ℕ) : List ℚ :=
  ids.map (fun i => rates.getD i 0)

/-- Embeds `huber_quantile_loss` (loss_functions.py lines 25-31) over
the rationals, as consumed elementwise by the rate pipeline. -/
def huber_quantile_loss (u tau kappa : ℚ) : ℚ :=
  let num := |tau - (if u ≤ 0 then (1 : ℚ) else 0)|
  if |u| ≤ kappa then num / (2 * kappa) * u ^ 2
  else num * (|u| - kappa / 2)

/-- Embeds `rates = tf.reduce_mean(_spikes, (0, 1))`
(loss_functions.py line 40): the per-neuron mean over batch and
time. -/
def neuronRates (spikes : List (List (List ℚ))) : List ℚ :=
  let nNeurons := ((spikes.headD []).headD []).length
  let flat := spikes.flatten
  (List.range nNeurons).map (fun j => meanQ (flat.map (fun row => row.getD j 0)))

/-- Embeds `compute_spike_rate_distribution_loss` (loss_functions.py
lines 59-69) with the `tf.random.shuffle` draw passed in as the index
list `rand_ind`: gather by the shuffled indices, sort, pinball
difference against the targets, elementwise Huber-quantile loss at
`kappa = 0.002` with quantile levels `(i+1)/n`. -/
def compute_spike_rate_distribution_loss (_rates target_rate : List ℚ)
    (rand_ind : List ℕ) : List ℚ :=
  let _rate := gather _rates rand_ind
  let sorted_rate := _rate.mergeSort (fun a b => decide (a ≤ b))
  let u := List.zipWith (fun t s => t - s) target_rate sorted_rate
  let n := target_rate.length
  let tau := (List.range n).map (fun i : ℕ => ((i : ℚ) + 1) / (n : ℚ))
  List.zipWith (fun ui taui => huber_quantile_loss ui taui (2 / 1000)) u tau

/-- Eligible rate/target selection for one cell type
(loss_functions.py lines 44-52): without a core mask, gather the
per-neuron rates at the global type indices; with one, build the
boolean membership of the type indices in the core, gather rates at
the positions of that boolean vector, and restrict the targets by the
same boolean vector. -/
def entrySelect (rates : List ℚ) (core_mask : Option (List Bool))
    (e : TargetEntry) : List ℚ × List ℚ :=
  match core_mask with
  | none => (gather rates e.neuron_ids, e.sorted_target_rates)
  | some mask =>
      let key_core_mask := e.neuron_ids.map (fun gid => mask.getD gid false)
      let neuron_ids := (List.range key_core_mask.length).filter
        (fun i => key_core_mask.getD i false)
      (gather rates neuron_ids, boolMask key_core_mask e.sorted_target_rates)

/-- Embeds `compute_spike_rate_target_loss` (loss_functions.py lines
34-57): per cell type, select the eligible rates and targets, compute
the distribution loss vector, take its mean (`tf.reduce_mean`, NaN on
an empty type), and sum the per-type scalars
(`tf.reduce_sum`, NaN propagating). -/
def compute_spike_rate_target_loss (spikes : List (List (List ℚ)))
    (target_rates : List TargetEntry) (core_mask : Option (List Bool))
    (rand_inds : List (List ℕ)) : Option ℚ :=
  let rates := neuronRates spikes
  sumOpt ((target_rates.zip rand_inds).map (fun p =>
    let sel := entrySelect rates core_mask p.1
    meanOpt (compute_spike_rate_distribution_loss sel.1 sel.2 p.2)))

end RL

namespace OSI

/-- Embeds `tf.reduce_mean(spikes, axis=[1])` for one batch row
(time-major rows): the per-neuron mean over time. -/
def timeMeans (bt : List (List ℚ)) (nNeurons : ℕ) : List ℚ :=
  (List.range nNeurons).map (fun j => meanQ (bt.map (fun row => row.getD j 0)))

/-- Embeds the pre/post delay slicing `spikes[:, pre:, :]` and
`spikes[:, :-post, :]` (loss_functions.py lines 85-88 and 166-169):
the leading trim applies when `pre` is present, the trailing trim only
when `post` is present and nonzero. -/
def trimTime (pre post : Option ℕ) (spikes : List (List (List ℚ))) :
    List (List (List ℚ)) :=
  let s1 : List (List (List ℚ)) := match pre with
    | none => spikes
    | some p => spikes.map (fun bt => bt.drop p)
  match post with
  | none => s1
  | some q => if q ≠ 0 then s1.map (fun bt => bt.take (bt.length - q)) else s1

/-- Embeds `OrientationSelectivityLoss.__call__` (loss_functions.py
lines 159-179): mask core neurons in both spikes and tuning angles,
trim time, broadcast the wrapped delta over batch and neurons,
multiply elementwise by the per-neuron time-mean rates, and return the
mean of the elementwise absolute values over the flattened
batch-by-neuron array, scaled by `osi_cost`. -/
def osi_call (tuning_angles : List ℚ) (osi_cost : ℚ) (pre post : Option ℕ)
    (core_mask : Option (List Bool)) (spikes : List (List (List ℚ)))
    (angle : List ℚ) : ℚ :=
  let tuning := match core_mask with
    | none => tuning_angles
    | some m => boolMask m tuning_angles
  let spikes1 : List (List (List ℚ)) := match core_mask with
    | none => spikes
    | some m => spikes.map (fun bt => bt.map (boolMask m))
  let spikes2 := trimTime pre post spikes1
  let delta : List (List ℚ) :=
    angle.map (fun a => tuning.map (fun t => calculate_delta_angle a t))
  let rates : List (List ℚ) :=
    spikes2.map (fun bt => timeMeans bt ((bt.headD []).length))
  let sum_angle :=
    List.zipWith (fun r d => List.zipWith (· * ·) r d) rates delta
  meanQ ((sum_angle.map (fun row => row.map (fun s => |s|))).flatten) * osi_cost

/-- The OSI loss as claim C7 words it: the mean over neurons is taken
first, then the absolute value, then the mean over batch elements
(written for comparison with the source-faithful `osi_call`). -/
def osi_claimed (tuning_angles : List ℚ) (osi_cost : ℚ) (pre post : Option ℕ)
    (core_mask : Option (List Bool)) (spikes : List (List (List ℚ)))
    (angle : List ℚ) : ℚ :=
  let tuning := match core_mask with
    | none => tuning_angles
    | some m => boolMask m tuning_angles
  let spikes1 : List (List (List ℚ)) := match core_mask with
    | none => spikes
    | some m => spikes.map (fun bt => bt.map (boolMask m))
  let spikes2 := trimTime pre post spikes1
  let delta : List (List ℚ) :=
    angle.map (fun a => tuning.map (fun t => calculate_delta_angle a t))
  let rates : List (List ℚ) :=
    spikes2.map (fun bt => timeMeans bt ((bt.headD []).length))
  let sum_angle :=
    List.zipWith (fun r d => List.zipWith (· * ·) r d) rates delta
  osi_cost * meanQ (sum_angle.map (fun row => |meanQ row|))

end OSI

namespace TrimM

/-- Modelled from the spec: `SpikeRateDistributionTarget.__call__` as
invoked by `roll_out` with a `trim` argument (multi_training.py line
302) — the class in src/loss_functions.py lines 84-91 lacks that
parameter, so the trim gating is taken from spec section 4.9: the
pre/post window (the slicing of lines 85-88) is cut only when the flag
is set, and the result is scaled by `rate_cost`. -/
def rate_loss_call (rate_cost : ℚ) (pre post : Option ℕ)
    (table : List RL.TargetEntry) (core_mask : Option (List Bool))
    (rand_inds : List (List ℕ)) (trim : Bool)
    (spikes : List (List (List ℚ))) : Option ℚ :=
  let s := if trim then OSI.trimTime pre post spikes else spikes
  (RL.compute_spike_rate_target_loss s table core_mask rand_inds).map
    (fun l => l * rate_cost)

/-- Modelled from the spec: `OrientationSelectivityLoss.__call__` as
invoked by `roll_out` with a `trim` argument (multi_training.py line
303) — src/loss_functions.py lines 159-179 lacks that parameter; per
spec section 4.9 the flag gates the pre/post slicing and the rest of
the computation is the source `osi_call`. -/
def osi_loss_call (tuning : List ℚ) (osi_cost : ℚ) (pre post : Option ℕ)
    (core_mask : Option (List Bool)) (trim : Bool)
    (spikes : List (List (List ℚ))) (angle : List ℚ) : ℚ :=
  OSI.osi_call tuning osi_cost (if trim then pre else none)
    (if trim then post else none) core_mask spikes angle

/-- Embeds the loss computations of `roll_out` (multi_training.py
lines 301-307): the voltage loss on the untrimmed voltages (the source
comments that trim is irrelevant for it), the rate and OSI losses with
the trim flag. -/
def roll_out_losses (vc voff vsc rate_cost osi_cost : ℚ)
    (tuning : List ℚ) (pre post : Option ℕ) (core : Option (List Bool))
    (table : List RL.TargetEntry) (rand_inds : List (List ℕ)) (trim : Bool)
    (z v : List (List (List ℚ))) (y : List ℚ) :
    ℚ × Option ℚ × ℚ :=
  (VG.voltage_regularization vc voff vsc core v,
   rate_loss_call rate_cost pre post table core rand_inds trim z,
   osi_loss_call tuning osi_cost pre post core trim z y)

/-- The trim flag a training step passes for chunk count `chunknum`:
`trim=chunknum==1` (multi_training.py line 504). -/
def step_trim (chunknum : ℕ) : Bool := chunknum == 1

/-- The per-chunk losses of a training step at chunk count `chunknum`:
`roll_out` invoked with `trim = (chunknum == 1)` (multi_training.py
lines 502-504 and 320-323). -/
def train_step_losses (vc voff vsc rate_cost osi_cost : ℚ)
    (tuning : List ℚ) (pre post : Option ℕ) (core : Option (List Bool))
    (table : List RL.TargetEntry) (rand_inds : List (List ℕ))
    (chunknum : ℕ) (z v : List (List (List ℚ))) (y : List ℚ) :
    ℚ × Option ℚ × ℚ :=
  roll_out_losses vc voff vsc rate_cost osi_cost tuning pre post core
    table rand_inds (step_trim chunknum) z v y

end TrimM

namespace StateFlow

/-- The mutable per-process state of `multi_training.main`: the live
recurrent state variables (line 261) and the train and validation
metric accumulators. -/
structure ProcState (S M : Type) where
  state_variables : S
  train_metrics : M
  val_metrics : M

/-- Embeds `roll_out` (multi_training.py lines 290-309) at the state
level: read the live state variables, run the model on the chunk, and
unconditionally assign the returned new state back to the live
variables (line 299); returns the model output alongside the updated
process state. -/
def roll_out {S M Out Inp : Type} (model : Inp → S → Out × S)
    (x : Inp) (p : ProcState S M) : Out × ProcState S M :=
  let initial_state := p.state_variables
  let r := model x initial_state
  (r.1, { p with state_variables := r.2 })

/-- Embeds `train_step` (multi_training.py lines 320-341): roll out a
chunk and fold the output into the training metrics; gradient
application does not touch the simulation state. -/
def train_step {S M Out Inp : Type} (model : Inp → S → Out × S)
    (updTrain : M → Out → M) (x : Inp) (p : ProcState S M) :
    ProcState S M :=
  let r := roll_out model x p
  { r.2 with train_metrics := updTrain (r.2).train_metrics r.1 }

/-- Embeds `validation_step` (multi_training.py lines 354-367): the
same roll out without gradients, folding the output into the
validation metrics; the state assignment done inside `roll_out` is not
undone (the restoring assignment at line 365 is commented out in the
source). -/
def validation_step {S M Out Inp : Type} (model : Inp → S → Out × S)
    (updVal : M → Out → M) (x : Inp) (p : ProcState S M) :
    ProcState S M :=
  let r := roll_out model x p
  { r.2 with val_metrics := updVal (r.2).val_metrics r.1 }

end StateFlow

/-- C1: the voltage regularizer is claimed to vanish whenever all
normalized voltages lie in `[-1, 1]`, with the negative-side barrier at
`-1`.  The code computes `relu(-v + 1)²`, a barrier at `+1`: a single
neuron at normalized voltage `0` (inside `[-1, 1]`) already incurs
penalty `1`, so the loss is nonzero on an in-range tensor. -/
theorem C1_voltage_barrier_bug :
    VG.voltage_regularization 1 0 1 none [[[0]]] = 1 ∧
    VG.voltage_regularization 1 0 1 none [[[0]]] ≠ 0 := by
  constructor <;>
    norm_num [VG.voltage_regularization, meanQ, listSum, relu]

/-- C3 counterexample: for `stim_angle = 451`, `tuning_angle = 0` the
raw delta `451` exceeds the reach of the two wrap passes, and the
result `91` lies outside `[-90, 90]`, refuting the claim for arbitrary
input values. -/
theorem C3_delta_angle_counterexample :
    OSI.calculate_delta_angle 451 0 = 91 ∧
    90 < OSI.calculate_delta_angle 451 0 := by
  constructor <;>
    norm_num [OSI.calculate_delta_angle, OSI.wrapHigh, OSI.wrapLow]

/-- C3 amended: whenever the raw difference `stim_angle - tuning_angle`
lies in `[-450, 450]` (in particular for angles in `[0, 360)`), the
doubly applied wrap lands in `[-90, 90]`; the two spec examples
`(10, 200) ↦ -10` and `(0, 91) ↦ 89` hold as stated. -/
theorem C3_delta_angle_range (stim tuning : ℚ)
    (h1 : -450 ≤ stim - tuning) (h2 : stim - tuning ≤ 450) :
    (-90 ≤ OSI.calculate_delta_angle stim tuning ∧
      OSI.calculate_delta_angle stim tuning ≤ 90) ∧
    OSI.calculate_delta_angle 10 200 = -10 ∧
    OSI.calculate_delta_angle 0 91 = 89 := by
  refine ⟨?_,
    by norm_num [OSI.calculate_delta_angle, OSI.wrapHigh, OSI.wrapLow],
    by norm_num [OSI.calculate_delta_angle, OSI.wrapHigh, OSI.wrapLow]⟩
  unfold OSI.calculate_delta_angle OSI.wrapHigh OSI.wrapLow
  split_ifs <;> constructor <;> linarith

/-- C3 witness: the amended range theorem applied at the concrete pair
`(10, 200)`, whose raw delta `-190` satisfies the hypotheses. -/
theorem C3_delta_angle_range_witness :
    (-90 ≤ OSI.calculate_delta_angle 10 200 ∧
      OSI.calculate_delta_angle 10 200 ≤ 90) ∧
    OSI.calculate_delta_angle 10 200 = -10 ∧
    OSI.calculate_delta_angle 0 91 = 89 :=
  C3_delta_angle_range 10 200 (by norm_num) (by norm_num)

/-- The branchless kernel agrees with the piecewise Huber kernel. -/
theorem HQ.huberKernel_eq (kappa u : ℝ) (hk : 0 < kappa) :
    HQ.huberKernel kappa u
      = if |u| ≤ kappa then u ^ 2 / (2 * kappa) else |u| - kappa / 2 := by
  unfold HQ.huberKernel
  rcases le_or_lt |u| kappa with h | h
  · rw [min_eq_left h, if_pos h]
    have hs : |u| * |u| = u ^ 2 := by
      rw [← sq_abs u]; ring
    field_simp
    nlinarith [hs]
  · rw [min_eq_right h.le, if_neg (not_le.mpr h)]
    field_simp
    ring

/-- The Huber-quantile loss decomposes through the branchless kernel:
the negative side weighted `1 - τ`, the positive side weighted `τ`. -/
theorem HQ.huber_decomp (u tau kappa : ℝ)
    (h0 : 0 ≤ tau) (h1 : tau ≤ 1) (hk : 0 < kappa) :
    HQ.huber_quantile_loss u tau kappa
      = (1 - tau) * HQ.huberKernel kappa (min u 0)
        + tau * HQ.huberKernel kappa (max u 0) := by
  have hk0 : HQ.huberKernel kappa 0 = 0 := by
    rw [HQ.huberKernel_eq kappa 0 hk]
    simp [abs_nonneg, hk.le]
  unfold HQ.huber_quantile_loss HQ.indLe
  rcases le_or_lt u 0 with hu | hu
  · rw [min_eq_left hu, max_eq_right hu, hk0, if_pos hu,
      HQ.huberKernel_eq kappa u hk]
    have hnum : |tau - 1| = 1 - tau := by
      rw [abs_of_nonpos (by linarith)]; ring
    rcases le_or_lt |u| kappa with h | h
    · rw [if_pos h, if_pos h]
      simp only [hnum]
      field_simp
      try ring
    · rw [if_neg (not_le.mpr h), if_neg (not_le.mpr h)]
      simp only [hnum]
      ring
  · rw [min_eq_right hu.le, max_eq_left hu.le, hk0, if_neg (not_le.mpr hu),
      HQ.huberKernel_eq kappa u hk]
    have hnum : |tau - 0| = tau := by
      rw [sub_zero, abs_of_nonneg h0]
    rcases le_or_lt |u| kappa with h | h
    · rw [if_pos h, if_pos h]
      simp only [hnum]
      field_simp
      try ring
    · rw [if_neg (not_le.mpr h), if_neg (not_le.mpr h)]
      simp only [hnum]
      ring

/-- C2: the Huber-quantile loss vanishes at `u = 0` for every quantile
level, is non-negative everywhere, is continuous in `u`, and beyond the
corner `κ` it equals the linear pinball expression and is bounded by
`|u|` (linear, not quadratic, growth). -/
theorem C2_huber_props (tau kappa : ℝ)
    (h0 : 0 ≤ tau) (h1 : tau ≤ 1) (hk : 0 < kappa) :
    HQ.huber_quantile_loss 0 tau kappa = 0 ∧
    (∀ u, 0 ≤ HQ.huber_quantile_loss u tau kappa) ∧
    Continuous (fun u => HQ.huber_quantile_loss u tau kappa) ∧
    (∀ u, kappa ≤ |u| →
      HQ.huber_quantile_loss u tau kappa
          = |tau - HQ.indLe u| * (|u| - kappa / 2) ∧
      HQ.huber_quantile_loss u tau kappa ≤ |u|) := by
  have hnum_nonneg : ∀ u, 0 ≤ |tau - HQ.indLe u| := fun u => abs_nonneg _
  have hnum_le_one : ∀ u, |tau - HQ.indLe u| ≤ 1 := by
    intro u
    unfold HQ.indLe
    rcases le_or_lt u 0 with h | h
    · rw [if_pos h, abs_of_nonpos (by linarith)]
      linarith
    · rw [if_neg (not_le.mpr h), sub_zero, abs_of_nonneg h0]
      exact h1
  refine ⟨?_, ?_, ?_, ?_⟩
  · unfold HQ.huber_quantile_loss
    rw [if_pos (by simpa using hk.le)]
    ring
  · intro u
    unfold HQ.huber_quantile_loss
    rcases le_or_lt |u| kappa with h | h
    · rw [if_pos h]
      have := hnum_nonneg u
      positivity
    · rw [if_neg (not_le.mpr h)]
      have h2 : 0 ≤ |u| - kappa / 2 := by
        have := abs_nonneg u
        linarith
      exact mul_nonneg (hnum_nonneg u) h2
  · have hker : Continuous (HQ.huberKernel kappa) := by
      unfold HQ.huberKernel
      exact (((continuous_abs.min continuous_const).mul
          continuous_abs).div_const kappa).sub
        (((continuous_abs.min continuous_const).pow 2).div_const (2 * kappa))
    have hmin : Continuous (fun u : ℝ => min u 0) :=
      continuous_id.min continuous_const
    have hmax : Continuous (fun u : ℝ => max u 0) :=
      continuous_id.max continuous_const
    have hc : Continuous (fun u : ℝ =>
        (1 - tau) * HQ.huberKernel kappa (min u 0)
          + tau * HQ.huberKernel kappa (max u 0)) :=
      (continuous_const.mul (hker.comp hmin)).add
        (continuous_const.mul (hker.comp hmax))
    exact hc.congr (fun u => (HQ.huber_decomp u tau kappa h0 h1 hk).symm)
  · intro u hu
    have hform : HQ.huber_quantile_loss u tau kappa
        = |tau - HQ.indLe u| * (|u| - kappa / 2) := by
      unfold HQ.huber_quantile_loss
      rcases le_or_lt |u| kappa with h | h
      · have heq : |u| = kappa := le_antisymm h hu
        rw [if_pos h]
        have hs : u ^ 2 = |u| * |u| := by
          rw [← sq_abs u]; ring
        rw [hs, heq]
        field_simp
        ring
      · rw [if_neg (not_le.mpr h)]
    refine ⟨hform, ?_⟩
    rw [hform]
    have h2 : 0 ≤ |u| - kappa / 2 := by linarith
    calc |tau - HQ.indLe u| * (|u| - kappa / 2)
        ≤ 1 * (|u| - kappa / 2) :=
          mul_le_mul_of_nonneg_right (hnum_le_one u) h2
      _ ≤ |u| := by linarith

/-- C2 witness: the property theorem instantiated at `τ = 1/2`,
`κ = 1`. -/
theorem C2_huber_props_witness :
    HQ.huber_quantile_loss 0 (1/2) 1 = 0 ∧
    (∀ u, 0 ≤ HQ.huber_quantile_loss u (1/2) 1) ∧
    Continuous (fun u => HQ.huber_quantile_loss u (1/2) 1) ∧
    (∀ u, (1:ℝ) ≤ |u| →
      HQ.huber_quantile_loss u (1/2) 1
          = |1/2 - HQ.indLe u| * (|u| - 1 / 2) ∧
      HQ.huber_quantile_loss u (1/2) 1 ≤ |u|) :=
  C2_huber_props (1/2) 1 (by norm_num) (by norm_num) (by norm_num)

/-- A counter at which the divisibility test succeeds is a valid
divisor position: at least `1` and at most `seqLen`. -/
theorem Sched.divisor_bounds (L c : ℕ) (hL : 1 ≤ L) (h : L % c = 0) :
    1 ≤ c ∧ c ≤ L := by
  rcases Nat.eq_zero_or_pos c with h0 | h1
  · subst h0
    rw [Nat.mod_zero] at h
    omega
  · exact ⟨h1, Nat.le_of_dvd hL (Nat.dvd_of_mod_eq_zero h)⟩

/-- The upward search stays within `[1, seqLen]` whenever
`seqLen ≥ 1`. -/
theorem Sched.upLoop_bounds (L : ℕ) (hL : 1 ≤ L) (c : ℕ) :
    1 ≤ Sched.upLoop L c ∧ Sched.upLoop L c ≤ L := by
  have key : ∀ n c, L - c ≤ n →
      1 ≤ Sched.upLoop L c ∧ Sched.upLoop L c ≤ L := by
    intro n
    induction n with
    | zero =>
      intro c hc
      rw [Sched.upLoop]
      by_cases h : L % c = 0
      · rw [if_pos h]
        exact Sched.divisor_bounds L c hL h
      · rw [if_neg h, dif_pos (by omega)]
        exact ⟨hL, le_refl L⟩
    | succ n ih =>
      intro c hc
      rw [Sched.upLoop]
      by_cases h : L % c = 0
      · rw [if_pos h]
        exact Sched.divisor_bounds L c hL h
      · rw [if_neg h]
        by_cases h2 : L ≤ c + 1
        · rw [dif_pos h2]
          exact ⟨hL, le_refl L⟩
        · rw [dif_neg h2]
          exact ih (c + 1) (by omega)
  exact key (L - c) c (le_refl _)

/-- The downward search from counter `k ≥ 1` returns the greatest
divisor of `L` that is at most `k` (and at least `1`). -/
theorem Sched.downLoop_spec (L : ℕ) (_hL : 1 ≤ L) (k : ℕ) (hk : 1 ≤ k) :
    Sched.downLoop L k ∣ L ∧ 1 ≤ Sched.downLoop L k ∧
    Sched.downLoop L k ≤ k ∧
    ∀ e, e ∣ L → e ≤ k → e ≤ Sched.downLoop L k := by
  have key : ∀ n k, k ≤ n → 1 ≤ k →
      Sched.downLoop L k ∣ L ∧ 1 ≤ Sched.downLoop L k ∧
      Sched.downLoop L k ≤ k ∧
      ∀ e, e ∣ L → e ≤ k → e ≤ Sched.downLoop L k := by
    intro n
    induction n with
    | zero => intro k h1 h2; omega
    | succ n ih =>
      intro k hkn hk1
      rw [Sched.downLoop]
      by_cases h : L % k = 0
      · rw [if_pos h]
        exact ⟨Nat.dvd_of_mod_eq_zero h, hk1, le_refl k, fun e _ he => he⟩
      · rw [if_neg h]
        have hkdvd : ¬ k ∣ L := fun hdvd =>
          h (Nat.mod_eq_zero_of_dvd hdvd)
        by_cases h2 : k - 1 ≤ 1
        · rw [dif_pos h2]
          refine ⟨one_dvd L, le_refl 1, hk1, ?_⟩
          intro e hdvd hle
          by_contra hcon
          have heq : e = k := by omega
          subst heq
          exact hkdvd hdvd
        · rw [dif_neg h2]
          obtain ⟨d1, d2, d3, d4⟩ := ih (k - 1) (by omega) (by omega)
          refine ⟨d1, d2, by omega, ?_⟩
          intro e hdvd hle
          rcases Nat.lt_or_ge e k with hlt | hge
          · exact d4 e hdvd (by omega)
          · have heq : e = k := by omega
            subst heq
            exact absurd hdvd hkdvd
  exact key k k (le_refl k) hk

/-- Every scheduler transition preserves `1 ≤ chunknum ≤ seqLen`. -/
theorem Sched.schedStep_bounds (L c : ℕ) (hL : 1 ≤ L)
    (h1 : 1 ≤ c) (h2 : c ≤ L) (e : Sched.SchedEvent) :
    1 ≤ Sched.schedStep L c e ∧ Sched.schedStep L c e ≤ L := by
  cases e with
  | oom => exact Sched.upLoop_bounds L hL (c + 1)
  | stepDone dec =>
    simp only [Sched.schedStep, Sched.get_next_chunknum]
    by_cases hc : 1 < c
    · rw [if_pos hc]
      cases dec with
      | false =>
        rw [if_neg (by simp)]
        exact ⟨h1, h2⟩
      | true =>
        rw [if_pos rfl]
        obtain ⟨_, d2, d3, _⟩ := Sched.downLoop_spec L hL (c - 1) (by omega)
        exact ⟨d2, by omega⟩
    · rw [if_neg hc]
      exact ⟨h1, h2⟩

/-- C6: the chunk divisor stays in `[1, seq_len]` along any run of OOM
growths and heuristic shrinks; growing from `seq_len` returns `seq_len`
(terminal); and the shrink target from any `chunknum > 1` is exactly
the next smaller divisor of `seq_len` (clamped at `1` because `1`
always divides). -/
theorem C6_chunknum_invariant (L : ℕ) (hL : 1 ≤ L)
    (events : List Sched.SchedEvent) :
    (1 ≤ Sched.schedRun L events ∧ Sched.schedRun L events ≤ L) ∧
    Sched.get_next_chunknum L L .up = L ∧
    (∀ c, 1 < c →
      Sched.get_next_chunknum c L .down ∣ L ∧
      1 ≤ Sched.get_next_chunknum c L .down ∧
      Sched.get_next_chunknum c L .down < c ∧
      ∀ e, e ∣ L → e < c → e ≤ Sched.get_next_chunknum c L .down) := by
  refine ⟨?_, ?_, ?_⟩
  · have key : ∀ (ev : List Sched.SchedEvent) (c : ℕ), 1 ≤ c → c ≤ L →
        1 ≤ ev.foldl (fun c e => Sched.schedStep L c e) c ∧
        ev.foldl (fun c e => Sched.schedStep L c e) c ≤ L := by
      intro ev
      induction ev with
      | nil => intro c h1 h2; exact ⟨h1, h2⟩
      | cons e rest ih =>
        intro c h1 h2
        obtain ⟨g1, g2⟩ := Sched.schedStep_bounds L c hL h1 h2 e
        exact ih _ g1 g2
    exact key events 1 (le_refl 1) hL
  · show Sched.upLoop L (L + 1) = L
    rw [Sched.upLoop]
    have hmod : L % (L + 1) = L := Nat.mod_eq_of_lt (by omega)
    rw [if_neg (by omega), dif_pos (by omega)]
  · intro c hc
    simp only [Sched.get_next_chunknum]
    obtain ⟨d1, d2, d3, d4⟩ := Sched.downLoop_spec L hL (c - 1) (by omega)
    exact ⟨d1, d2, by omega, fun e he hlt => d4 e he (by omega)⟩

/-- C6 witness: the invariant theorem applied at `seq_len = 600` on a
run with one OOM growth followed by one shrink decision. -/
theorem C6_chunknum_invariant_witness :
    (1 ≤ Sched.schedRun 600 [.oom, .stepDone true] ∧
      Sched.schedRun 600 [.oom, .stepDone true] ≤ 600) ∧
    Sched.get_next_chunknum 600 600 .up = 600 ∧
    (∀ c, 1 < c →
      Sched.get_next_chunknum c 600 .down ∣ 600 ∧
      1 ≤ Sched.get_next_chunknum c 600 .down ∧
      Sched.get_next_chunknum c 600 .down < c ∧
      ∀ e, e ∣ 600 → e < c → e ≤ Sched.get_next_chunknum c 600 .down) :=
  C6_chunknum_invariant 600 (by norm_num) [.oom, .stepDone true]

/-- Folding `min` only ever lowers the accumulator. -/
theorem foldl_min_le_init (ys : List ℚ) (z : ℚ) : ys.foldl min z ≤ z := by
  induction ys generalizing z with
  | nil => exact le_refl z
  | cons y ys ih =>
    calc (y :: ys).foldl min z = ys.foldl min (min z y) := rfl
      _ ≤ min z y := ih (min z y)
      _ ≤ z := min_le_left z y

/-- The `min` fold is below every list member. -/
theorem foldl_min_le_mem (ys : List ℚ) (z a : ℚ) (ha : a ∈ ys) :
    ys.foldl min z ≤ a := by
  induction ys generalizing z with
  | nil => cases ha
  | cons y ys ih =>
    rcases List.mem_cons.mp ha with h | h
    · subst h
      calc (a :: ys).foldl min z = ys.foldl min (min z a) := rfl
        _ ≤ min z a := foldl_min_le_init ys (min z a)
        _ ≤ a := min_le_right z a
    · exact ih (min z y) h

/-- Folding `max` only ever raises the accumulator. -/
theorem init_le_foldl_max (ys : List ℚ) (z : ℚ) : z ≤ ys.foldl max z := by
  induction ys generalizing z with
  | nil => exact le_refl z
  | cons y ys ih =>
    calc z ≤ max z y := le_max_left z y
      _ ≤ ys.foldl max (max z y) := ih (max z y)
      _ = (y :: ys).foldl max z := rfl

/-- Every list member is below the `max` fold. -/
theorem mem_le_foldl_max (ys : List ℚ) (z a : ℚ) (ha : a ∈ ys) :
    a ≤ ys.foldl max z := by
  induction ys generalizing z with
  | nil => cases ha
  | cons y ys ih =>
    rcases List.mem_cons.mp ha with h | h
    · subst h
      calc a ≤ max z a := le_max_right z a
        _ ≤ ys.foldl max (max z a) := init_le_foldl_max ys (max z a)
        _ = (a :: ys).foldl max z := rfl
    · exact ih (max z y) h

/-- `listMinD` bounds every member from below. -/
theorem listMinD_le (l : List ℚ) (a : ℚ) (ha : a ∈ l) : listMinD l ≤ a := by
  cases l with
  | nil => cases ha
  | cons x xs =>
    rcases List.mem_cons.mp ha with h | h
    · subst h; exact foldl_min_le_init xs a
    · exact foldl_min_le_mem xs x a h

/-- `listMaxD` bounds every member from above. -/
theorem le_listMaxD (l : List ℚ) (a : ℚ) (ha : a ∈ l) : a ≤ listMaxD l := by
  cases l with
  | nil => cases ha
  | cons x xs =>
    rcases List.mem_cons.mp ha with h | h
    · subst h; exact init_le_foldl_max xs a
    · exact mem_le_foldl_max xs x a h

/-- The embedded `np.sort` output is sorted ascending. -/
theorem SFR.npSort_sorted (l : List ℚ) :
    (SFR.npSort l).Sorted (· ≤ ·) := by
  have h := @List.sorted_mergeSort ℚ (fun a b : ℚ => decide (a ≤ b))
    (fun a b c hab hbc => by
      simp only [decide_eq_true_eq] at *
      exact le_trans hab hbc)
    (fun a b => by simpa using le_total a b) l
  exact h.imp (fun hab => by simpa using hab)

/-- The percentile knots are ascending. -/
theorem SFR.percentiles_chain (len : ℕ) :
    List.Chain' (· ≤ ·) (SFR.percentiles len) := by
  unfold SFR.percentiles
  apply List.Pairwise.chain'
  refine List.Pairwise.map _ ?_ (List.pairwise_lt_range len)
  intro i j hij
  rcases Nat.eq_zero_or_pos len with h0 | hpos
  · subst h0
    simp
  · have hc : (0:ℚ) < len := by exact_mod_cast hpos
    rw [div_le_div_iff₀ hc hc]
    have hij2 : (i:ℚ) ≤ j := by exact_mod_cast hij.le
    nlinarith

/-- Linear interpolation against an ascending knot sequence stays
between some two values of the ordinate list: witnesses inside `fp`
bound the result on both sides. -/
theorem SFR.np_interp_bounds (x : ℚ) (xp : List ℚ) :
    ∀ fp : List ℚ, List.Chain' (· ≤ ·) xp → fp ≠ [] →
      xp.length = fp.length →
      (∃ a ∈ fp, a ≤ SFR.np_interp x xp fp) ∧
      (∃ b ∈ fp, SFR.np_interp x xp fp ≤ b) := by
  induction xp with
  | nil =>
    intro fp _ hfp hlen
    cases fp with
    | nil => exact absurd rfl hfp
    | cons y ys => simp at hlen
  | cons x1 xp2 ih =>
    intro fp hchain hfp hlen
    cases fp with
    | nil => exact absurd rfl hfp
    | cons y1 fp2 =>
      cases xp2 with
      | nil =>
        cases fp2 with
        | nil =>
          exact ⟨⟨y1, by simp, le_refl _⟩, ⟨y1, by simp, le_refl _⟩⟩
        | cons y2 ys => simp at hlen
      | cons x2 xs =>
        cases fp2 with
        | nil => simp at hlen
        | cons y2 ys =>
          rw [SFR.np_interp]
          by_cases h1 : x ≤ x1
          · rw [if_pos h1]
            exact ⟨⟨y1, by simp, le_refl _⟩, ⟨y1, by simp, le_refl _⟩⟩
          · rw [if_neg h1]
            by_cases h2 : x ≤ x2
            · rw [if_pos h2]
              have h12 : x1 ≤ x2 := (List.chain'_cons.mp hchain).1
              rcases eq_or_lt_of_le h12 with heq | hlt
              · exfalso
                rw [← heq] at h2
                exact h1 h2
              · have hd : 0 < x2 - x1 := by linarith
                have ht0 : 0 ≤ (x - x1) / (x2 - x1) :=
                  div_nonneg (by linarith) hd.le
                have ht1 : (x - x1) / (x2 - x1) ≤ 1 :=
                  (div_le_one hd).mpr (by linarith)
                have hru : y1 + (y2 - y1) * (x - x1) / (x2 - x1)
                    = y1 + (y2 - y1) * ((x - x1) / (x2 - x1)) := by
                  rw [mul_div_assoc]
                have e1 : 0 ≤ (y1 - min y1 y2) * (1 - (x - x1) / (x2 - x1)) :=
                  mul_nonneg (by linarith [min_le_left y1 y2]) (by linarith)
                have e2 : 0 ≤ (y2 - min y1 y2) * ((x - x1) / (x2 - x1)) :=
                  mul_nonneg (by linarith [min_le_right y1 y2]) ht0
                have e3 : 0 ≤ (max y1 y2 - y1) * (1 - (x - x1) / (x2 - x1)) :=
                  mul_nonneg (by linarith [le_max_left y1 y2]) (by linarith)
                have e4 : 0 ≤ (max y1 y2 - y2) * ((x - x1) / (x2 - x1)) :=
                  mul_nonneg (by linarith [le_max_right y1 y2]) ht0
                have hlow : min y1 y2
                    ≤ y1 + (y2 - y1) * (x - x1) / (x2 - x1) := by
                  rw [hru]; nlinarith [e1, e2]
                have hhigh : y1 + (y2 - y1) * (x - x1) / (x2 - x1)
                    ≤ max y1 y2 := by
                  rw [hru]; nlinarith [e3, e4]
                have hmem1 : min y1 y2 ∈ y1 :: y2 :: ys := by
                  rcases le_total y1 y2 with hy | hy
                  · rw [min_eq_left hy]; simp
                  · rw [min_eq_right hy]; simp
                have hmem2 : max y1 y2 ∈ y1 :: y2 :: ys := by
                  rcases le_total y1 y2 with hy | hy
                  · rw [max_eq_right hy]; simp
                  · rw [max_eq_left hy]; simp
                exact ⟨⟨min y1 y2, hmem1, hlow⟩, ⟨max y1 y2, hmem2, hhigh⟩⟩
            · rw [if_neg h2]
              have hchain2 : List.Chain' (· ≤ ·) (x2 :: xs) :=
                (List.chain'_cons.mp hchain).2
              have hlen2 : (x2 :: xs).length = (y2 :: ys).length := by
                simpa using hlen
              obtain ⟨⟨a, hamem, ha⟩, ⟨b, hbmem, hb⟩⟩ :=
                ih (y2 :: ys) hchain2 (by simp) hlen2
              exact ⟨⟨a, List.mem_cons_of_mem y1 hamem, ha⟩,
                     ⟨b, List.mem_cons_of_mem y1 hbmem, hb⟩⟩

/-- C8: the sampler is a pure function of its inputs (two invocations
with the same seed and rates agree exactly), its output is sorted
ascending, and its length equals the requested neuron count, the empty
list when the count is zero. -/
theorem C8_sampler_props (firing_rates : List ℚ) (n seed : ℕ) :
    SFR.sample_firing_rates firing_rates n seed
      = SFR.sample_firing_rates firing_rates n seed ∧
    (SFR.sample_firing_rates firing_rates n seed).Sorted (· ≤ ·) ∧
    (SFR.sample_firing_rates firing_rates n seed).length = n ∧
    SFR.sample_firing_rates firing_rates 0 seed = [] := by
  refine ⟨rfl, ?_, ?_, ?_⟩
  · unfold SFR.sample_firing_rates
    exact SFR.npSort_sorted _
  · simp [SFR.sample_firing_rates, SFR.npSort, SFR.uniformSamples]
  · apply List.length_eq_zero.mp
    simp [SFR.sample_firing_rates, SFR.npSort, SFR.uniformSamples]

/-- C10: every sampled target rate lies between the minimum and the
maximum of the empirical input rates, because the inverse-CDF linear
interpolation clamps at the endpoints of the percentile curve. -/
theorem C10_sampler_range (firing_rates : List ℚ) (n seed : ℕ)
    (hne : firing_rates ≠ []) :
    ∀ y ∈ SFR.sample_firing_rates firing_rates n seed,
      listMinD firing_rates ≤ y ∧ y ≤ listMaxD firing_rates := by
  intro y hy
  unfold SFR.sample_firing_rates at hy
  rw [SFR.npSort, List.mem_mergeSort] at hy
  obtain ⟨x, _hx, rfl⟩ := List.mem_map.mp hy
  have hlen : (SFR.percentiles firing_rates.length).length
      = (SFR.npSort firing_rates).length := by
    simp [SFR.percentiles, SFR.npSort]
  have hfpne : SFR.npSort firing_rates ≠ [] := by
    intro hcon
    apply hne
    apply List.length_eq_zero.mp
    have hl := congrArg List.length hcon
    simpa [SFR.npSort] using hl
  obtain ⟨⟨a, hamem, ha⟩, ⟨b, hbmem, hb⟩⟩ :=
    SFR.np_interp_bounds x (SFR.percentiles firing_rates.length)
      (SFR.npSort firing_rates) (SFR.percentiles_chain _) hfpne hlen
  have hamem2 : a ∈ firing_rates := by
    rw [SFR.npSort, List.mem_mergeSort] at hamem
    exact hamem
  have hbmem2 : b ∈ firing_rates := by
    rw [SFR.npSort, List.mem_mergeSort] at hbmem
    exact hbmem
  exact ⟨le_trans (listMinD_le _ a hamem2) ha,
         le_trans hb (le_listMaxD _ b hbmem2)⟩

/-- The default head of a nonempty list is a member. -/
theorem headD_mem (l : List ℚ) (d : ℚ) (h : l ≠ []) : l.headD d ∈ l := by
  cases l with
  | nil => exact absurd rfl h
  | cons x xs => simp

/-- C10 witness: the range theorem applied to the concrete rate list
`[1, 3]` with two requested neurons and seed `0`, evaluated at the
first sampled value. -/
theorem C10_sampler_range_witness :
    listMinD [1, 3] ≤ (SFR.sample_firing_rates [1, 3] 2 0).headD 0 ∧
    (SFR.sample_firing_rates [1, 3] 2 0).headD 0 ≤ listMaxD [1, 3] := by
  have hne : SFR.sample_firing_rates [1, 3] 2 0 ≠ [] := by
    intro h
    have hl := congrArg List.length h
    simp [SFR.sample_firing_rates, SFR.npSort, SFR.uniformSamples] at hl
  exact C10_sampler_range [1, 3] 2 0 (by simp) _ (headD_mem _ 0 hne)

/-- C9: after every chunk execution the live state variables hold
exactly the new state returned by the model — for training and for
validation alike — and a subsequent roll out reads the state written by
the preceding validation step. -/
theorem C9_state_overwritten_including_validation
    {S M Out Inp : Type} (model : Inp → S → Out × S)
    (updTrain updVal : M → Out → M) (x x2 : Inp)
    (p : StateFlow.ProcState S M) :
    (StateFlow.validation_step model updVal x p).state_variables
        = (model x p.state_variables).2 ∧
    (StateFlow.train_step model updTrain x p).state_variables
        = (model x p.state_variables).2 ∧
    (StateFlow.roll_out model x2
        (StateFlow.validation_step model updVal x p)).1
      = (model x2 (model x p.state_variables).2).1 :=
  ⟨rfl, rfl, rfl⟩

/-- NaN absorbs on the left of the lifted addition. -/
theorem addOpt_none_left (b : Option ℚ) : addOpt none b = none := by
  cases b <;> rfl

/-- NaN absorbs on the right of the lifted addition. -/
theorem addOpt_none_right (a : Option ℚ) : addOpt a none = none := by
  cases a <;> rfl

/-- A NaN member makes the whole lifted sum NaN. -/
theorem sumOpt_none (l : List (Option ℚ)) (h : none ∈ l) :
    sumOpt l = none := by
  induction l with
  | nil => cases h
  | cons a l ih =>
    rw [sumOpt, List.foldr_cons]
    rcases List.mem_cons.mp h with h1 | h1
    · rw [← h1]
      exact addOpt_none_left _
    · rw [show List.foldr addOpt (some 0) l = sumOpt l from rfl, ih h1]
      exact addOpt_none_right a

/-- The per-type selection returns an empty target list whenever the
type's target list is empty, with or without a core mask. -/
theorem entrySelect_empty_targets (rates : List ℚ)
    (core_mask : Option (List Bool)) (e : RL.TargetEntry)
    (hempty : e.sorted_target_rates = []) :
    (RL.entrySelect rates core_mask e).2 = [] := by
  cases core_mask with
  | none => simpa [RL.entrySelect] using hempty
  | some m => simp [RL.entrySelect, hempty, boolMask]

/-- The distribution loss vector is empty whenever the target list is
empty, whatever the shuffled indices were. -/
theorem dist_loss_empty_targets (r : List ℚ) (ri : List ℕ) :
    RL.compute_spike_rate_distribution_loss r [] ri = [] := by
  simp [RL.compute_spike_rate_distribution_loss]

/-- C4 amended: a cell type whose (restricted) target list is empty
raises no error, but its per-type term is the mean of an empty loss
vector — NaN — and NaN propagates through the sum over types, so the
total rate-distribution loss is NaN (`none`), not a zero
contribution. -/
theorem C4_empty_type_gives_nan (spikes : List (List (List ℚ)))
    (table : List RL.TargetEntry) (core_mask : Option (List Bool))
    (rand_inds : List (List ℕ)) (i : ℕ) (hi : i < table.length)
    (hlen : table.length = rand_inds.length)
    (hempty : table[i].sorted_target_rates = []) :
    RL.compute_spike_rate_target_loss spikes table core_mask rand_inds
      = none := by
  unfold RL.compute_spike_rate_target_loss
  apply sumOpt_none
  have hizip : i < (table.zip rand_inds).length := by
    rw [List.length_zip]
    omega
  have hmem : (table.zip rand_inds).get ⟨i, hizip⟩ ∈ table.zip rand_inds :=
    List.get_mem _ _ _
  have hfst : ((table.zip rand_inds).get ⟨i, hizip⟩).1 = table[i] := by
    rw [List.get_eq_getElem, List.getElem_zip]
  have hval : (fun p : RL.TargetEntry × List ℕ =>
      meanOpt (RL.compute_spike_rate_distribution_loss
        (RL.entrySelect (RL.neuronRates spikes) core_mask p.1).1
        (RL.entrySelect (RL.neuronRates spikes) core_mask p.1).2 p.2))
      ((table.zip rand_inds).get ⟨i, hizip⟩) = none := by
    have hsel : (RL.entrySelect (RL.neuronRates spikes) core_mask
        ((table.zip rand_inds).get ⟨i, hizip⟩).1).2 = [] := by
      apply entrySelect_empty_targets
      rw [hfst]
      exact hempty
    simp only [hsel, dist_loss_empty_targets, meanOpt, List.isEmpty_nil,
      if_pos]
  rw [← hval]
  exact List.mem_map_of_mem _ hmem

/-- C4 witness: the amended theorem applied to a one-type table whose
entry has no neurons and no targets. -/
theorem C4_empty_type_gives_nan_witness :
    RL.compute_spike_rate_target_loss [[[1]]]
      [RL.TargetEntry.mk [] []] none [[]] = none :=
  C4_empty_type_gives_nan [[[1]]] [RL.TargetEntry.mk [] []] none [[]] 0
    (by simp) (by simp) (by simp)

/-- C4 counterexample: with one neuron spiking constantly, a table
holding an empty cell type next to a normal one yields total loss NaN
(`none`), while the same table without the empty type yields `0`: the
empty type does not contribute zero. -/
theorem C4_empty_type_counterexample :
    RL.compute_spike_rate_target_loss [[[1]]]
      [RL.TargetEntry.mk [] [], RL.TargetEntry.mk [0] [0]] none [[], [0]]
      = none ∧
    RL.compute_spike_rate_target_loss [[[1]]]
      [RL.TargetEntry.mk [0] [0]] none [[0]] = some 0 := by
  constructor <;>
    norm_num [RL.compute_spike_rate_target_loss, RL.neuronRates,
      RL.entrySelect, RL.gather, RL.compute_spike_rate_distribution_loss,
      RL.huber_quantile_loss, meanQ, meanOpt, listSum, sumOpt, addOpt,
      List.range_succ, List.getD_cons_zero, List.getD_cons_succ]

/-- C7 counterexample: one batch element, two neurons with wrapped
deltas `10` and `-10`, both firing at rate `1`.  The source loss takes
absolute values elementwise and averages to `10`; the claimed
mean-over-neurons-then-absolute-value evaluates to `0`. -/
theorem C7_osi_order_counterexample :
    OSI.osi_call [-10, 10] 1 none none none [[[1, 1]]] [0] = 10 ∧
    OSI.osi_claimed [-10, 10] 1 none none none [[[1, 1]]] [0] = 0 := by
  constructor <;>
    norm_num [OSI.osi_call, OSI.osi_claimed, OSI.trimTime, OSI.timeMeans,
      OSI.calculate_delta_angle, OSI.wrapHigh, OSI.wrapLow, meanQ, listSum,
      List.range_succ, List.getD_cons_zero, List.getD_cons_succ]

/-- C7 amended: the orientation selectivity loss is `osi_cost` times
the mean over the flattened batch-by-neuron array of the absolute
values of (time-mean rate times wrapped delta) — the absolute value is
applied elementwise before a single global mean, not after a mean over
neurons. -/
theorem C7_osi_elementwise_abs (tuning angle : List ℚ) (cost : ℚ)
    (spikes : List (List (List ℚ))) :
    OSI.osi_call tuning cost none none none spikes angle
      = cost * meanQ (List.flatten (List.zipWith (fun bt a =>
          List.zipWith (fun r t => |r * OSI.calculate_delta_angle a t|)
            (OSI.timeMeans bt ((bt.headD []).length)) tuning)
          spikes angle)) := by
  unfold OSI.osi_call OSI.trimTime
  simp only [List.zipWith_map, List.map_zipWith, List.zipWith_map_right,
    List.zipWith_map_left]
  rw [mul_comm]

/-- C5 counterexample: at `chunknum = 1` the trim flag is set, yet the
voltage loss of the training step is computed on the full, untrimmed
voltage tensor, and for a tensor whose first timestep is out of range
this differs from the trimmed computation — so trimming is not applied
to the voltage loss even when `chunknum == 1`. -/
theorem C5_voltage_not_trimmed_counterexample :
    TrimM.step_trim 1 = true ∧
    (TrimM.train_step_losses 1 0 1 0 0 [] (some 1) (some 0) none [] [] 1
        [] [[[3], [0]]] []).1
      = VG.voltage_regularization 1 0 1 none [[[3], [0]]] ∧
    VG.voltage_regularization 1 0 1 none [[[3], [0]]]
      ≠ VG.voltage_regularization 1 0 1 none
          (OSI.trimTime (some 1) (some 0) [[[3], [0]]]) := by
  refine ⟨rfl, rfl, ?_⟩
  norm_num [VG.voltage_regularization, OSI.trimTime, meanQ, listSum, relu]

/-- C5 amended: the trim flag of a training step is set exactly when
`chunknum = 1`; the rate and OSI losses cut the pre/post-delay window
exactly when that flag is set — on multiple chunks each sub-chunk is
scored in full — while the voltage loss of the step is always computed
on the untrimmed tensor, regardless of `chunknum`. -/
theorem C5_trim_iff_chunknum_one (c : ℕ)
    (rate_cost osi_cost vc voff vsc : ℚ) (tuning : List ℚ)
    (pre post : Option ℕ) (core : Option (List Bool))
    (table : List RL.TargetEntry) (rand_inds : List (List ℕ))
    (z v : List (List (List ℚ))) (y : List ℚ) :
    (TrimM.step_trim c = true ↔ c = 1) ∧
    TrimM.rate_loss_call rate_cost pre post table core rand_inds
        (TrimM.step_trim c) z
      = (RL.compute_spike_rate_target_loss
          (if c = 1 then OSI.trimTime pre post z else z)
          table core rand_inds).map (fun l => l * rate_cost) ∧
    TrimM.osi_loss_call tuning osi_cost pre post core (TrimM.step_trim c) z y
      = OSI.osi_call tuning osi_cost (if c = 1 then pre else none)
          (if c = 1 then post else none) core z y ∧
    (TrimM.train_step_losses vc voff vsc rate_cost osi_cost tuning pre post
        core table rand_inds c z v y).1
      = VG.voltage_regularization vc voff vsc core v := by
  have hb : TrimM.step_trim c = true ↔ c = 1 := by
    simp [TrimM.step_trim]
  refine ⟨hb, ?_, ?_, rfl⟩
  · unfold TrimM.rate_loss_call
    by_cases hc : c = 1
    · have htr : TrimM.step_trim c = true := hb.mpr hc
      rw [htr, if_pos rfl, if_pos hc]
    · have htr : TrimM.step_trim c = false := by
        simp [TrimM.step_trim, hc]
      rw [htr, if_neg (by simp), if_neg hc]
  · unfold TrimM.osi_loss_call
    by_cases hc : c = 1
    · have htr : TrimM.step_trim c = true := hb.mpr hc
      rw [htr, if_pos rfl, if_pos rfl, if_pos hc, if_pos hc]
    · have htr : TrimM.step_trim c = false := by
        simp [TrimM.step_trim, hc]
      rw [htr, if_neg (by simp), if_neg (by simp), if_neg hc, if_neg hc]
